import Mathlib

/-!
Verification model of `apathy::Path` (src/path.hpp), POSIX branch
(`_WIN32` not defined).  A path is modelled as its character sequence
(`List Char`); every operation below is a direct translation of the
corresponding member function of `class Path`.
-/

namespace Apathy

/-- The constant `apathy::separator` on POSIX (path.hpp:86). -/
def sep : Char := '/'

/-- The `'.'` segment. -/
def dot : List Char := ['.']

/-- The `".."` segment. -/
def dotdot : List Char := ['.', '.']

/-- Tokenization performed by `Path::split` (path.hpp:579-589) through
`std::istream_iterator<Segment>` and `Segment::operator>>`
(path.hpp:102-104), i.e. repeated `std::getline(stream, s, separator)`:
each token is the run of characters up to the next separator, the
separator itself is consumed and discarded, and extraction fails (ending
the sequence) exactly when the stream is already exhausted — so an empty
input yields no token, a trailing separator does not open a final empty
token, and a leading separator yields a leading empty token. -/
def splitStream : List Char → List (List Char)
  | [] => []
  | c :: cs =>
    if c = sep then
      [] :: splitStream cs
    else
      match splitStream cs with
      | [] => [[c]]
      | t :: ts => (c :: t) :: ts

/-- Model of `Path::trailing_slash` (path.hpp:602-609, POSIX branch): the path is
non-empty and its last character is the separator. -/
def trailing_slash (p : List Char) : Bool :=
  decide (p.getLast? = some sep)

/-- Model of `Path::is_absolute` (path.hpp:594-600, POSIX branch): the path is
non-empty and its first character is the separator. -/
def is_absolute (p : List Char) : Bool :=
  decide (p.head? = some sep)

/-- Model of `Path::split` (path.hpp:579-589): stream tokens, plus one explicit
trailing empty segment when the path ends with a separator. -/
def split (p : List Char) : List (List Char) :=
  splitStream p ++ (if trailing_slash p then [[]] else [])

/-- Model of `Path::join(const std::vector<Segment>&)` (path.hpp:655-667): the
segments concatenated with a single separator between consecutive
elements. -/
def join : List (List Char) → List Char
  | [] => []
  | [s] => s
  | s :: t :: rest => s ++ sep :: join (t :: rest)

/-- Model of `Path::trim` (path.hpp:562-572): erase everything after the last
non-separator character; if every character is a separator the whole
string is erased. -/
def trim (p : List Char) : List Char :=
  ((p.reverse).dropWhile (fun c => c = sep)).reverse

/-- Model of `Path::directory` (path.hpp:556-560): `trim()` then push one
separator. -/
def directory (p : List Char) : List Char :=
  trim p ++ [sep]

/-- One iteration of the pruning loop of `Path::sanitize`
(path.hpp:493-534, POSIX branch): skip empty and `"."` segments; on
`".."` either pop the accumulator or (relative paths only) push the
`".."` literally; push every other segment. -/
def pruneStep (relative : Bool) (acc : List (List Char)) (s : List Char) :
    List (List Char) :=
  if s = [] ∨ s = dot then acc
  else if s = dotdot then
    if relative then
      if acc ≠ [] ∧ acc.getLast? ≠ some dotdot then acc.dropLast
      else acc ++ [s]
    else acc.dropLast
  else acc ++ [s]

/-- The full pruning loop of `Path::sanitize` over the segment list,
starting from an empty `pruned` vector. -/
def prune (relative : Bool) (segs : List (List Char)) : List (List Char) :=
  segs.foldl (pruneStep relative) []

/-- Model of `Path::sanitize` (path.hpp:485-554, POSIX branch): split, prune,
re-join; an absolute path gets the leading separator back, and a path
that had a trailing separator is re-directory-marked (for relative
results only when non-empty). -/
def sanitize (p : List Char) : List Char :=
  let segments := split p
  let relative := !(is_absolute p)
  let pruned := prune relative segments
  let was_directory := trailing_slash p
  if relative = false then
    let q := sep :: join pruned
    if was_directory then directory q else q
  else
    let q := join pruned
    if q ≠ [] ∧ was_directory then directory q else q

/-- Model of `Path::append` (path.hpp:438-447): push a separator unless the path
already ends with one, then concatenate the segment's raw string. -/
def append (p segment : List Char) : List Char :=
  (if trailing_slash p then p else p ++ [sep]) ++ segment

/-- Model of `Path::join(const Path&, const Path&)` (path.hpp:649-653): copy `a`,
then `append(b)`. -/
def joinPaths (a b : List Char) : List Char :=
  append a b

/-- Model of `Path::up` (path.hpp:458-472): an empty path becomes `".."`
directory-marked; otherwise append `".."`, sanitize, and (when the
result is non-empty) directory-mark it. -/
def up (p : List Char) : List Char :=
  if p = [] then directory dotdot
  else
    let q := sanitize (append p dotdot)
    if q = [] then q else directory q

/-- Model of `Path::parent` (path.hpp:233): a non-mutating copy of `up`. -/
def parent (p : List Char) : List Char :=
  up p

/-- The removal loop of `Path::rmdirs` (path.hpp:806-817), with the
outcome of each removal system call (`rmdir`/`unlink` succeeding or
failing, in the sorted order of the collected entries) supplied as a
boolean trace.  Returns the final value of `success` together with the
number of entries whose removal was attempted: each iteration overwrites
`success` with the current outcome and breaks when it failed and
`ignore_errors` is unset. -/
def rmdirsRun (ignore_errors : Bool) : List Bool → Bool → Bool × Nat
  | [], success => (success, 0)
  | outcome :: rest, _ =>
    if outcome = false ∧ ignore_errors = false then (outcome, 1)
    else
      let r := rmdirsRun ignore_errors rest outcome
      (r.1, r.2 + 1)

/-- The boolean returned by `Path::rmdirs` (path.hpp:793-820) as a
function of the removal-outcome trace: the loop starts with
`success = true`. -/
def rmdirsResult (ignore_errors : Bool) (outcomes : List Bool) : Bool :=
  (rmdirsRun ignore_errors outcomes true).1

/-- A well-formed segment: non-empty and free of the separator
character.  Every segment produced by pruning a split path is of this
form. -/
def SegOk (s : List Char) : Prop := s ≠ [] ∧ sep ∉ s

/-- A "real" segment: well-formed and neither `"."` nor `".."`. -/
def RealSeg (s : List Char) : Prop := SegOk s ∧ s ≠ dot ∧ s ≠ dotdot

/-- Canonical form of the pruned accumulator on a relative path: a block
of `".."` segments followed by real segments. -/
def CanonRel (l : List (List Char)) : Prop :=
  ∃ k rs, l = List.replicate k dotdot ++ rs ∧ ∀ s ∈ rs, RealSeg s

/-- Canonical form of the pruned accumulator on an absolute path: real
segments only. -/
def CanonAbs (l : List (List Char)) : Prop := ∀ s ∈ l, RealSeg s

theorem sep_not_mem_splitStream (p : List Char) :
    ∀ t ∈ splitStream p, sep ∉ t := by
  induction p with
  | nil => intro t ht; simp [splitStream] at ht
  | cons c cs ih =>
    intro t ht
    by_cases hc : c = sep
    · rw [splitStream, if_pos hc, List.mem_cons] at ht
      rcases ht with rfl | ht
      · simp
      · exact ih t ht
    · rw [splitStream, if_neg hc] at ht
      cases hcs : splitStream cs with
      | nil =>
        rw [hcs, List.mem_singleton] at ht
        subst ht
        intro hm
        rw [List.mem_singleton] at hm
        exact hc hm.symm
      | cons u us =>
        rw [hcs, List.mem_cons] at ht
        rcases ht with rfl | ht
        · intro hmem
          rw [List.mem_cons] at hmem
          rcases hmem with hm | hm
          · exact hc hm.symm
          · exact ih u (hcs ▸ List.mem_cons_self u us) hm
        · exact ih t (hcs ▸ List.mem_cons_of_mem u ht)

theorem splitStream_sep_cons (cs : List Char) :
    splitStream (sep :: cs) = [] :: splitStream cs := by
  rw [splitStream, if_pos rfl]

theorem splitStream_token {t : List Char} (h1 : sep ∉ t) (h2 : t ≠ []) :
    splitStream t = [t] := by
  induction t with
  | nil => exact absurd rfl h2
  | cons c cs ih =>
    have hc : c ≠ sep := fun h => h1 (h ▸ List.mem_cons_self c cs)
    rw [splitStream, if_neg hc]
    cases hcs : cs with
    | nil => simp [splitStream]
    | cons d ds =>
      have : splitStream cs = [cs] := by
        apply ih
        · exact fun h => h1 (List.mem_cons_of_mem c h)
        · simp [hcs]
      rw [hcs] at this
      rw [this]

theorem splitStream_token_append {t rest : List Char} (h : sep ∉ t) :
    splitStream (t ++ sep :: rest) = t :: splitStream rest := by
  induction t with
  | nil => simpa using splitStream_sep_cons rest
  | cons c cs ih =>
    have hc : c ≠ sep := fun hce => h (hce ▸ List.mem_cons_self c cs)
    have hcs : sep ∉ cs := fun hm => h (List.mem_cons_of_mem c hm)
    rw [List.cons_append, splitStream, if_neg hc, ih hcs]

theorem join_ne_nil {l : List (List Char)} (h0 : l ≠ [])
    (h : ∀ t ∈ l, t ≠ []) : join l ≠ [] := by
  cases l with
  | nil => exact absurd rfl h0
  | cons s l' =>
    cases l' with
    | nil => exact h s (List.mem_cons_self s [])
    | cons t rest =>
      rw [join]
      exact List.append_ne_nil_of_left_ne_nil
        (h s (List.mem_cons_self s (t :: rest))) _

theorem head?_append_of_left_ne_nil {α : Type} {l l' : List α}
    (h : l ≠ []) : (l ++ l').head? = l.head? := by
  cases l with
  | nil => exact absurd rfl h
  | cons a t => simp

theorem getLast?_append_of_right_ne_nil {α : Type} {l l' : List α}
    (h : l' ≠ []) : (l ++ l').getLast? = l'.getLast? := by
  rw [List.getLast?_append]
  rw [List.getLast?_eq_getLast l' h]
  simp [Option.or]

theorem trailing_slash_join {l : List (List Char)}
    (h : ∀ t ∈ l, SegOk t) : trailing_slash (join l) = false := by
  induction l with
  | nil => decide
  | cons s l' ih =>
    cases l' with
    | nil =>
      obtain ⟨hs, hsep⟩ := h s (List.mem_cons_self s [])
      have : (join [s]).getLast? = some (s.getLast hs) := by
        rw [join]; exact List.getLast?_eq_getLast s hs
      simp only [trailing_slash, this, decide_eq_false_iff_not]
      intro hc
      exact hsep (Option.some.inj hc ▸ List.getLast_mem hs)
    | cons t rest =>
      have hjr : join (t :: rest) ≠ [] :=
        join_ne_nil (by simp)
          (fun u hu => (h u (List.mem_cons_of_mem s hu)).1)
      have htail := ih (fun u hu => h u (List.mem_cons_of_mem s hu))
      rw [join]
      simp only [trailing_slash, decide_eq_false_iff_not] at htail ⊢
      rw [getLast?_append_of_right_ne_nil (List.cons_ne_nil sep _)]
      cases hjr2 : join (t :: rest) with
      | nil => exact absurd hjr2 hjr
      | cons u us =>
        rw [List.getLast?_cons_cons]
        rw [hjr2] at htail
        exact htail

theorem is_absolute_join {l : List (List Char)}
    (h : ∀ t ∈ l, SegOk t) : is_absolute (join l) = false := by
  cases l with
  | nil => decide
  | cons s l' =>
    obtain ⟨hs, hsep⟩ := h s (List.mem_cons_self s l')
    have hh : (join (s :: l')).head? = some (s.head hs) := by
      cases l' with
      | nil => rw [join]; exact List.head?_eq_head hs
      | cons t rest =>
        rw [join, head?_append_of_left_ne_nil hs]
        exact List.head?_eq_head hs
    simp only [is_absolute, hh, decide_eq_false_iff_not]
    intro hc
    exact hsep (Option.some.inj hc ▸ List.head_mem hs)

theorem splitStream_join {l : List (List Char)} (h0 : l ≠ [])
    (h : ∀ t ∈ l, SegOk t) : splitStream (join l) = l := by
  induction l with
  | nil => exact absurd rfl h0
  | cons s l' ih =>
    obtain ⟨hs, hsep⟩ := h s (List.mem_cons_self s l')
    cases l' with
    | nil => rw [join]; exact splitStream_token hsep hs
    | cons t rest =>
      rw [join, splitStream_token_append hsep,
        ih (by simp) (fun u hu => h u (List.mem_cons_of_mem s hu))]

theorem splitStream_join_sep {l : List (List Char)} (h0 : l ≠ [])
    (h : ∀ t ∈ l, SegOk t) : splitStream (join l ++ [sep]) = l := by
  induction l with
  | nil => exact absurd rfl h0
  | cons s l' ih =>
    obtain ⟨hs, hsep⟩ := h s (List.mem_cons_self s l')
    cases l' with
    | nil =>
      rw [join]
      have : s ++ [sep] = s ++ sep :: ([] : List Char) := rfl
      rw [this, splitStream_token_append hsep]
      rfl
    | cons t rest =>
      rw [join, List.append_assoc, List.cons_append,
        splitStream_token_append hsep,
        ih (by simp) (fun u hu => h u (List.mem_cons_of_mem s hu))]

theorem trim_of_not_trailing {p : List Char}
    (h : trailing_slash p = false) : trim p = p := by
  simp only [trailing_slash, decide_eq_false_iff_not] at h
  unfold trim
  cases hrev : p.reverse with
  | nil =>
    have : p = [] := by simpa using congrArg List.reverse hrev
    simp [this]
  | cons c r =>
    have hc : c ≠ sep := by
      intro hce
      apply h
      rw [List.getLast?_eq_head?_reverse, hrev]
      simp [hce]
    rw [List.dropWhile_cons, if_neg (by simpa using hc)]
    rw [← hrev, List.reverse_reverse]

theorem directory_of_not_trailing {p : List Char}
    (h : trailing_slash p = false) : directory p = p ++ [sep] := by
  rw [directory, trim_of_not_trailing h]

theorem trailing_slash_concat_sep (p : List Char) :
    trailing_slash (p ++ [sep]) = true := by
  simp [trailing_slash, List.getLast?_concat]

theorem pruneStep_nil_seg (rel : Bool) (acc : List (List Char)) :
    pruneStep rel acc [] = acc := by
  simp [pruneStep]

theorem pruneStep_real {rel : Bool} {acc : List (List Char)}
    {s : List Char} (h : RealSeg s) : pruneStep rel acc s = acc ++ [s] := by
  obtain ⟨⟨h1, _⟩, h2, h3⟩ := h
  rw [pruneStep, if_neg (by tauto), if_neg h3]

theorem foldl_pruneStep_real {rel : Bool} (acc : List (List Char))
    {rs : List (List Char)} (h : ∀ s ∈ rs, RealSeg s) :
    List.foldl (pruneStep rel) acc rs = acc ++ rs := by
  induction rs generalizing acc with
  | nil => simp
  | cons r rs' ih =>
    rw [List.foldl_cons, pruneStep_real (h r (List.mem_cons_self r rs')),
      ih _ (fun s hs => h s (List.mem_cons_of_mem r hs))]
    simp

theorem pruneStep_dotdot_rel (j : Nat) :
    pruneStep true (List.replicate j dotdot) dotdot
      = List.replicate (j + 1) dotdot := by
  have hC : ¬(List.replicate j dotdot ≠ [] ∧
      (List.replicate j dotdot).getLast? ≠ some dotdot) := by
    rintro ⟨hne, hlast⟩
    cases j with
    | zero => exact hne rfl
    | succ n => exact hlast (by rw [List.getLast?_replicate]; simp)
  rw [pruneStep, if_neg (by decide), if_pos rfl, if_pos rfl, if_neg hC,
    List.replicate_succ']

theorem foldl_pruneStep_dotdots (j k : Nat) :
    List.foldl (pruneStep true) (List.replicate j dotdot)
      (List.replicate k dotdot) = List.replicate (j + k) dotdot := by
  induction k generalizing j with
  | zero => simp
  | succ n ih =>
    rw [List.replicate_succ, List.foldl_cons, pruneStep_dotdot_rel, ih]
    have : j + 1 + n = j + (n + 1) := by omega
    rw [this]

theorem prune_id_rel {l : List (List Char)} (h : CanonRel l) :
    prune true l = l := by
  obtain ⟨k, rs, rfl, hrs⟩ := h
  rw [prune, List.foldl_append]
  have h1 : List.foldl (pruneStep true) [] (List.replicate k dotdot)
      = List.replicate k dotdot := by
    simpa using foldl_pruneStep_dotdots 0 k
  rw [h1, foldl_pruneStep_real _ hrs]

theorem prune_id_abs {l : List (List Char)} (h : CanonAbs l) :
    prune false l = l := by
  rw [prune]
  simpa using foldl_pruneStep_real ([] : List (List Char)) h

theorem prune_cons_nil (rel : Bool) (segs : List (List Char)) :
    prune rel ([] :: segs) = prune rel segs := by
  rw [prune, prune, List.foldl_cons, pruneStep_nil_seg]

theorem prune_concat_nil (rel : Bool) (segs : List (List Char)) :
    prune rel (segs ++ [[]]) = prune rel segs := by
  rw [prune, prune, List.foldl_append, List.foldl_cons, pruneStep_nil_seg,
    List.foldl_nil]

theorem canonRel_pruneStep {acc : List (List Char)} {s : List Char}
    (hc : CanonRel acc) (hs : sep ∉ s) : CanonRel (pruneStep true acc s) := by
  obtain ⟨k, rs, rfl, hrs⟩ := hc
  by_cases h1 : s = [] ∨ s = dot
  · rw [pruneStep, if_pos h1]
    exact ⟨k, rs, rfl, hrs⟩
  by_cases h2 : s = dotdot
  · subst h2
    cases rs with
    | nil =>
      rw [List.append_nil, pruneStep_dotdot_rel k]
      exact ⟨k + 1, [], by simp, by simp⟩
    | cons r rs' =>
      have hlast : (List.replicate k dotdot ++ r :: rs').getLast?
          = (r :: rs').getLast? :=
        getLast?_append_of_right_ne_nil (List.cons_ne_nil r rs')
      have hC : List.replicate k dotdot ++ r :: rs' ≠ [] ∧
          (List.replicate k dotdot ++ r :: rs').getLast? ≠ some dotdot := by
        constructor
        · intro hx
          have := congrArg List.length hx
          simp at this
        · rw [hlast, List.getLast?_eq_getLast _ (List.cons_ne_nil r rs')]
          intro hx
          have hmem := List.getLast_mem (List.cons_ne_nil r rs')
          exact (hrs _ hmem).2.2 (Option.some.inj hx)
      rw [pruneStep, if_neg h1, if_pos rfl, if_pos rfl, if_pos hC,
        List.dropLast_append_of_ne_nil _ (List.cons_ne_nil r rs')]
      exact ⟨k, (r :: rs').dropLast, rfl,
        fun u hu => hrs u (List.mem_of_mem_dropLast hu)⟩
  · push_neg at h1
    rw [pruneStep, if_neg (by tauto), if_neg h2, List.append_assoc]
    refine ⟨k, rs ++ [s], rfl, fun u hu => ?_⟩
    rw [List.mem_append, List.mem_singleton] at hu
    rcases hu with hu | rfl
    · exact hrs u hu
    · exact ⟨⟨h1.1, hs⟩, h1.2, h2⟩

theorem canonAbs_pruneStep {acc : List (List Char)} {s : List Char}
    (hc : CanonAbs acc) (hs : sep ∉ s) : CanonAbs (pruneStep false acc s) := by
  by_cases h1 : s = [] ∨ s = dot
  · rw [pruneStep, if_pos h1]
    exact hc
  by_cases h2 : s = dotdot
  · rw [pruneStep, if_neg h1, if_pos h2, if_neg (by simp)]
    exact fun u hu => hc u (List.mem_of_mem_dropLast hu)
  · push_neg at h1
    rw [pruneStep, if_neg (by tauto), if_neg h2]
    intro u hu
    rw [List.mem_append, List.mem_singleton] at hu
    rcases hu with hu | rfl
    · exact hc u hu
    · exact ⟨⟨h1.1, hs⟩, h1.2, h2⟩

theorem canonRel_foldl {segs : List (List Char)}
    (h : ∀ s ∈ segs, sep ∉ s) :
    ∀ {acc}, CanonRel acc →
      CanonRel (List.foldl (pruneStep true) acc segs) := by
  induction segs with
  | nil => intro acc hacc; exact hacc
  | cons s segs' ih =>
    intro acc hacc
    rw [List.foldl_cons]
    exact ih (fun u hu => h u (List.mem_cons_of_mem s hu))
      (canonRel_pruneStep hacc (h s (List.mem_cons_self s segs')))

theorem canonAbs_foldl {segs : List (List Char)}
    (h : ∀ s ∈ segs, sep ∉ s) :
    ∀ {acc}, CanonAbs acc →
      CanonAbs (List.foldl (pruneStep false) acc segs) := by
  induction segs with
  | nil => intro acc hacc; exact hacc
  | cons s segs' ih =>
    intro acc hacc
    rw [List.foldl_cons]
    exact ih (fun u hu => h u (List.mem_cons_of_mem s hu))
      (canonAbs_pruneStep hacc (h s (List.mem_cons_self s segs')))

theorem sep_not_mem_split (p : List Char) : ∀ t ∈ split p, sep ∉ t := by
  intro t ht
  rw [split, List.mem_append] at ht
  rcases ht with ht | ht
  · exact sep_not_mem_splitStream p t ht
  · by_cases hd : trailing_slash p
    · rw [if_pos hd, List.mem_singleton] at ht
      simp [ht]
    · rw [if_neg hd] at ht
      simp at ht

theorem canonRel_prune_split (p : List Char) :
    CanonRel (prune true (split p)) :=
  canonRel_foldl (sep_not_mem_split p) ⟨0, [], by simp, by simp⟩

theorem canonAbs_prune_split (p : List Char) :
    CanonAbs (prune false (split p)) :=
  canonAbs_foldl (sep_not_mem_split p) (by simp [CanonAbs])

theorem segOk_dotdot : SegOk dotdot :=
  ⟨by decide, by decide⟩

theorem canonRel_segOk {l : List (List Char)} (h : CanonRel l) :
    ∀ t ∈ l, SegOk t := by
  obtain ⟨k, rs, rfl, hrs⟩ := h
  intro t ht
  rw [List.mem_append] at ht
  rcases ht with ht | ht
  · rw [List.mem_replicate] at ht
    rw [ht.2]
    exact segOk_dotdot
  · exact (hrs t ht).1

theorem canonAbs_segOk {l : List (List Char)} (h : CanonAbs l) :
    ∀ t ∈ l, SegOk t :=
  fun t ht => (h t ht).1

theorem sanitize_abs {p : List Char} (ha : is_absolute p = true) :
    sanitize p =
      (if trailing_slash p then
        directory (sep :: join (prune false (split p)))
      else sep :: join (prune false (split p))) := by
  rw [sanitize, ha]
  rfl

theorem sanitize_rel {p : List Char} (ha : is_absolute p = false) :
    sanitize p =
      (if join (prune true (split p)) ≠ [] ∧ trailing_slash p then
        directory (join (prune true (split p)))
      else join (prune true (split p))) := by
  rw [sanitize, ha]
  rfl

theorem trailing_slash_sep_join {l : List (List Char)}
    (hOk : ∀ t ∈ l, SegOk t) (hl : l ≠ []) :
    trailing_slash (sep :: join l) = false := by
  have hjoin : join l ≠ [] := join_ne_nil hl (fun t ht => (hOk t ht).1)
  have h := trailing_slash_join hOk
  simp only [trailing_slash, decide_eq_false_iff_not] at h ⊢
  cases hj : join l with
  | nil => exact absurd hj hjoin
  | cons u us =>
    rw [List.getLast?_cons_cons]
    rw [hj] at h
    exact h

theorem sanitize_abs_nil {p : List Char} (ha : is_absolute p = true)
    (hp : prune false (split p) = []) : sanitize p = [sep] := by
  rw [sanitize_abs ha, hp]
  by_cases hd : trailing_slash p
  · rw [if_pos hd]
    decide
  · rw [if_neg hd]
    rfl

theorem sanitize_abs_cons {p : List Char} (ha : is_absolute p = true)
    (hp : prune false (split p) ≠ []) :
    sanitize p = (sep :: join (prune false (split p)))
      ++ (if trailing_slash p then [sep] else []) := by
  have hOk := canonAbs_segOk (canonAbs_prune_split p)
  have hts := trailing_slash_sep_join hOk hp
  rw [sanitize_abs ha]
  by_cases hd : trailing_slash p
  · rw [if_pos hd, if_pos hd, directory_of_not_trailing hts]
  · rw [if_neg hd, if_neg hd, List.append_nil]

theorem sanitize_rel_nil {p : List Char} (ha : is_absolute p = false)
    (hp : prune true (split p) = []) : sanitize p = [] := by
  rw [sanitize_rel ha, hp]
  simp [join]

theorem sanitize_rel_cons {p : List Char} (ha : is_absolute p = false)
    (hp : prune true (split p) ≠ []) :
    sanitize p = join (prune true (split p))
      ++ (if trailing_slash p then [sep] else []) := by
  have hOk := canonRel_segOk (canonRel_prune_split p)
  have hjoin : join (prune true (split p)) ≠ [] :=
    join_ne_nil hp (fun t ht => (hOk t ht).1)
  have hts := trailing_slash_join hOk
  rw [sanitize_rel ha]
  by_cases hd : trailing_slash p
  · rw [if_pos ⟨hjoin, hd⟩, directory_of_not_trailing hts, if_pos hd]
  · rw [if_neg (by tauto), if_neg hd, List.append_nil]

theorem trailing_render {x : List Char} (hx : trailing_slash x = false)
    (wd : Bool) :
    trailing_slash (x ++ (if wd then [sep] else [])) = wd := by
  cases wd
  · simpa using hx
  · simpa using trailing_slash_concat_sep x

theorem is_absolute_sep_cons_append (q tail : List Char) :
    is_absolute ((sep :: q) ++ tail) = true := by
  simp [is_absolute]

theorem is_absolute_join_append {l : List (List Char)}
    (hOk : ∀ t ∈ l, SegOk t) (hl : l ≠ []) (tail : List Char) :
    is_absolute (join l ++ tail) = false := by
  have hjoin : join l ≠ [] := join_ne_nil hl (fun t ht => (hOk t ht).1)
  have h := is_absolute_join hOk
  simp only [is_absolute, decide_eq_false_iff_not] at h ⊢
  rw [head?_append_of_left_ne_nil hjoin]
  exact h

theorem split_sep_join {l : List (List Char)} (hl : l ≠ [])
    (hOk : ∀ t ∈ l, SegOk t) :
    split (sep :: join l) = [] :: l := by
  rw [split, if_neg (by rw [trailing_slash_sep_join hOk hl]; simp),
    List.append_nil, splitStream_sep_cons, splitStream_join hl hOk]

theorem split_sep_join_dir {l : List (List Char)} (hl : l ≠ [])
    (hOk : ∀ t ∈ l, SegOk t) :
    split ((sep :: join l) ++ [sep]) = ([] :: l) ++ [[]] := by
  have h1 : trailing_slash ((sep :: join l) ++ [sep]) = true :=
    trailing_slash_concat_sep _
  rw [split, if_pos h1, List.cons_append, splitStream_sep_cons,
    splitStream_join_sep hl hOk]

theorem split_join_canon {l : List (List Char)} (hl : l ≠ [])
    (hOk : ∀ t ∈ l, SegOk t) :
    split (join l) = l := by
  rw [split, if_neg (by rw [trailing_slash_join hOk]; simp),
    List.append_nil, splitStream_join hl hOk]

theorem split_join_dir {l : List (List Char)} (hl : l ≠ [])
    (hOk : ∀ t ∈ l, SegOk t) :
    split (join l ++ [sep]) = l ++ [[]] := by
  rw [split, if_pos (trailing_slash_concat_sep _),
    splitStream_join_sep hl hOk]

theorem sanitize_fix_abs_nod {l : List (List Char)} (hc : CanonAbs l)
    (hl : l ≠ []) :
    sanitize (sep :: join l) = sep :: join l := by
  have hOk := canonAbs_segOk hc
  have habs : is_absolute (sep :: join l) = true := by simp [is_absolute]
  have hprune : prune false (split (sep :: join l)) = l := by
    rw [split_sep_join hl hOk, prune_cons_nil]
    exact prune_id_abs hc
  rw [sanitize_abs_cons habs (by rw [hprune]; exact hl), hprune,
    if_neg (by rw [trailing_slash_sep_join hOk hl]; simp), List.append_nil]

theorem sanitize_fix_abs_dir {l : List (List Char)} (hc : CanonAbs l)
    (hl : l ≠ []) :
    sanitize ((sep :: join l) ++ [sep]) = (sep :: join l) ++ [sep] := by
  have hOk := canonAbs_segOk hc
  have habs : is_absolute ((sep :: join l) ++ [sep]) = true := by
    rw [List.cons_append]
    simp [is_absolute]
  have hprune : prune false (split ((sep :: join l) ++ [sep])) = l := by
    rw [split_sep_join_dir hl hOk, List.cons_append, prune_cons_nil,
      prune_concat_nil]
    exact prune_id_abs hc
  rw [sanitize_abs_cons habs (by rw [hprune]; exact hl), hprune,
    if_pos (trailing_slash_concat_sep _)]

theorem sanitize_fix_rel_nod {l : List (List Char)} (hc : CanonRel l)
    (hl : l ≠ []) :
    sanitize (join l) = join l := by
  have hOk := canonRel_segOk hc
  have habs : is_absolute (join l) = false := is_absolute_join hOk
  have hprune : prune true (split (join l)) = l := by
    rw [split_join_canon hl hOk]
    exact prune_id_rel hc
  rw [sanitize_rel_cons habs (by rw [hprune]; exact hl), hprune,
    if_neg (by rw [trailing_slash_join hOk]; simp), List.append_nil]

theorem sanitize_fix_rel_dir {l : List (List Char)} (hc : CanonRel l)
    (hl : l ≠ []) :
    sanitize (join l ++ [sep]) = join l ++ [sep] := by
  have hOk := canonRel_segOk hc
  have habs : is_absolute (join l ++ [sep]) = false :=
    is_absolute_join_append hOk hl [sep]
  have hprune : prune true (split (join l ++ [sep])) = l := by
    rw [split_join_dir hl hOk, prune_concat_nil]
    exact prune_id_rel hc
  rw [sanitize_rel_cons habs (by rw [hprune]; exact hl), hprune,
    if_pos (trailing_slash_concat_sep _)]

/-- Claim C1: sanitize is idempotent — for every path p,
sanitize (sanitize p) = sanitize p, where equality is raw string
(character sequence) equality. -/
theorem c1_sanitize_idempotent (p : List Char) :
    sanitize (sanitize p) = sanitize p := by
  cases ha : is_absolute p with
  | true =>
    by_cases hp : prune false (split p) = []
    · rw [sanitize_abs_nil ha hp]
      decide
    · have hc := canonAbs_prune_split p
      by_cases hd : trailing_slash p
      · rw [sanitize_abs_cons ha hp, if_pos hd]
        exact sanitize_fix_abs_dir hc hp
      · rw [sanitize_abs_cons ha hp, if_neg hd, List.append_nil]
        exact sanitize_fix_abs_nod hc hp
  | false =>
    by_cases hp : prune true (split p) = []
    · rw [sanitize_rel_nil ha hp]
      decide
    · have hc := canonRel_prune_split p
      by_cases hd : trailing_slash p
      · rw [sanitize_rel_cons ha hp, if_pos hd]
        exact sanitize_fix_rel_dir hc hp
      · rw [sanitize_rel_cons ha hp, if_neg hd, List.append_nil]
        exact sanitize_fix_rel_nod hc hp

/-- Claim C2, counterexample: for p = "/..", sanitize p = "/" is
non-empty, yet p has no trailing slash while sanitize p does — so
directory-marker preservation fails even though the result is
non-empty. -/
theorem c2_trailing_cex :
    sanitize "/..".data ≠ [] ∧
    trailing_slash "/..".data ≠ trailing_slash (sanitize "/..".data) := by
  decide

/-- Claim C2, amended: sanitize preserves the directory marker whenever
sanitize p is non-empty, except when the result is the bare root "/"
(an absolute path whose segments all cancel), which always carries a
trailing separator regardless of p. -/
theorem c2_sanitize_trailing (p : List Char) (h1 : sanitize p ≠ [])
    (h2 : sanitize p ≠ [sep]) :
    trailing_slash (sanitize p) = trailing_slash p := by
  cases ha : is_absolute p with
  | true =>
    by_cases hp : prune false (split p) = []
    · exact absurd (sanitize_abs_nil ha hp) h2
    · have hOk := canonAbs_segOk (canonAbs_prune_split p)
      rw [sanitize_abs_cons ha hp]
      by_cases hd : trailing_slash p
      · rw [if_pos hd, trailing_slash_concat_sep, hd]
      · rw [if_neg hd, List.append_nil, trailing_slash_sep_join hOk hp]
        rw [Bool.not_eq_true] at hd
        rw [hd]
  | false =>
    by_cases hp : prune true (split p) = []
    · exact absurd (sanitize_rel_nil ha hp) h1
    · have hOk := canonRel_segOk (canonRel_prune_split p)
      rw [sanitize_rel_cons ha hp]
      by_cases hd : trailing_slash p
      · rw [if_pos hd, trailing_slash_concat_sep, hd]
      · rw [if_neg hd, List.append_nil, trailing_slash_join hOk]
        rw [Bool.not_eq_true] at hd
        rw [hd]

/-- Claim C2 amended, witness: at p = "a" the hypotheses hold and the
trailing-slash state (false) is preserved. -/
theorem c2_sanitize_trailing_witness :
    sanitize "a".data ≠ [] ∧ sanitize "a".data ≠ [sep] ∧
    trailing_slash (sanitize "a".data) = trailing_slash "a".data :=
  ⟨by decide, by decide,
    c2_sanitize_trailing "a".data (by decide) (by decide)⟩

/-- Claim C3, counterexample: with ignore_errors = true and the removal
trace [false, true] (first entry fails, last succeeds), rmdirs returns
true even though a removal step failed — the result is not
"false iff at least one step failed". -/
theorem c3_rmdirs_cex :
    rmdirsResult true [false, true] = true ∧ false ∈ [false, true] := by
  decide

/-- Claim C3, amended: with ignore_errors = true, rmdirs attempts the
removal of every collected entry (the loop never breaks early), and its
boolean result equals the outcome of the last removal step alone (true
when there are no entries) — success is overwritten on each iteration,
so earlier failures are forgotten. -/
theorem c3_rmdirs_ignore_errors (outcomes : List Bool) :
    (rmdirsRun true outcomes true).2 = outcomes.length ∧
    rmdirsResult true outcomes = outcomes.getLast?.getD true := by
  have key : ∀ (l : List Bool) (init : Bool),
      rmdirsRun true l init = (l.getLast?.getD init, l.length) := by
    intro l
    induction l with
    | nil => intro init; rfl
    | cons o rest ih =>
      intro init
      show (if o = false ∧ true = false then (o, 1)
            else ((rmdirsRun true rest o).1, (rmdirsRun true rest o).2 + 1))
          = _
      rw [if_neg (by simp), ih o]
      cases rest with
      | nil => rfl
      | cons r rs =>
        rw [List.getLast?_cons_cons]
        rfl
  rw [rmdirsResult, key outcomes true]
  exact ⟨rfl, rfl⟩

/-- Claim C4, counterexample: split "/foo/bar/baz/" has 5 elements, not
4, and its first element is the empty segment produced by the leading
separator, not the first real component (this matches the repository's
own test at src/test.cpp:284-285). -/
theorem c4_split_cex :
    (split "/foo/bar/baz/".data).length = 5 ∧
    (split "/foo/bar/baz/".data).head? = some [] := by
  decide

/-- Claim C4, amended: for every absolute path (one beginning with the
separator) split produces a leading empty segment for the leading
separator — the first element is an empty segment, not the first real
component — and a trailing separator appends one explicit trailing
empty segment; split "/foo/bar/baz/" hence has 5 elements. -/
theorem c4_split_leading_empty (p : List Char)
    (h : is_absolute p = true) :
    (split p).head? = some [] ∧
    (trailing_slash p = true → (split p).getLast? = some []) := by
  constructor
  · simp only [is_absolute, decide_eq_true_eq] at h
    cases p with
    | nil => simp at h
    | cons c cs =>
      have hc : c = sep := by simpa using h
      subst hc
      rw [split, splitStream_sep_cons,
        head?_append_of_left_ne_nil (List.cons_ne_nil _ _)]
      rfl
  · intro hd
    rw [split, if_pos hd, List.getLast?_concat]

/-- Claim C4 amended, witness: at p = "/foo/bar/baz/" the hypothesis
holds, the first element of split p is the empty segment, and the
trailing empty segment is present. -/
theorem c4_split_leading_empty_witness :
    is_absolute "/foo/bar/baz/".data = true ∧
    (split "/foo/bar/baz/".data).head? = some [] ∧
    (trailing_slash "/foo/bar/baz/".data = true →
      (split "/foo/bar/baz/".data).getLast? = some []) :=
  ⟨by decide, c4_split_leading_empty "/foo/bar/baz/".data (by decide)⟩

/-- Claim C5: sanitize preserves absoluteness — for every path p,
is_absolute (sanitize p) = is_absolute p; a relative path never becomes
absolute and an absolute path never becomes relative. -/
theorem c5_sanitize_absoluteness (p : List Char) :
    is_absolute (sanitize p) = is_absolute p := by
  cases ha : is_absolute p with
  | true =>
    by_cases hp : prune false (split p) = []
    · rw [sanitize_abs_nil ha hp]
      decide
    · rw [sanitize_abs_cons ha hp]
      by_cases hd : trailing_slash p
      · rw [if_pos hd]
        exact is_absolute_sep_cons_append _ _
      · rw [if_neg hd, List.append_nil]
        simp [is_absolute]
  | false =>
    by_cases hp : prune true (split p) = []
    · rw [sanitize_rel_nil ha hp]
      decide
    · have hOk := canonRel_segOk (canonRel_prune_split p)
      rw [sanitize_rel_cons ha hp]
      by_cases hd : trailing_slash p
      · rw [if_pos hd]
        exact is_absolute_join_append hOk hp [sep]
      · rw [if_neg hd, List.append_nil]
        exact is_absolute_join hOk

/-- Claim C6: on a relative path unresolvable ".." segments are kept at
the front and separator runs collapse — sanitize "../../a/b////c" is
"../../a/b/c" — and in the relative branch a ".." pops the last
accumulated segment unless the accumulator is empty or ends in "..",
in which case the ".." is pushed literally. -/
theorem c6_sanitize_relative_dotdot :
    sanitize "../../a/b////c".data = "../../a/b/c".data ∧
    ∀ acc : List (List Char),
      pruneStep true acc dotdot =
        (if acc ≠ [] ∧ acc.getLast? ≠ some dotdot then acc.dropLast
         else acc ++ [dotdot]) := by
  refine ⟨by decide, fun acc => ?_⟩
  rw [pruneStep, if_neg (by decide), if_pos rfl, if_pos rfl]

/-- Claim C7: on an absolute path ".." clamps at the root — a ".." hit
with an empty accumulator is dropped — and
sanitize "/../../a/b////c" = "/a/b/c". -/
theorem c7_sanitize_absolute_dotdot :
    sanitize "/../../a/b////c".data = "/a/b/c".data ∧
    pruneStep false [] dotdot = [] := by
  exact ⟨by decide, by decide⟩

/-- Claim C8: the root is its own parent — parent "/" yields "/", with
parent being a non-mutating copy of up. -/
theorem c8_parent_root :
    parent "/".data = "/".data ∧ parent = up := by
  exact ⟨by decide, rfl⟩

/-- Claim C9: appending to an empty path inserts a leading separator —
for every segment s, append of s onto the empty path yields the
separator followed by s, which is an absolute path on POSIX; the static
join of an empty base with s behaves identically. -/
theorem c9_append_empty_base (s : List Char) :
    append [] s = sep :: s ∧ is_absolute (append [] s) = true ∧
    joinPaths [] s = append [] s := by
  have h : append [] s = sep :: s := by
    rw [append, if_neg (by decide)]
    rfl
  refine ⟨h, ?_, rfl⟩
  rw [h]
  simp [is_absolute]

/-- Claim C10: trim on a path consisting entirely of separators yields
the empty string — for every n at least 1, trim of n separators is ""
(not "/"), because no non-separator character exists and the whole
string is erased. -/
theorem c10_trim_all_separators (n : Nat) (h : 1 ≤ n) :
    trim (List.replicate n sep) = [] := by
  have hd : List.dropWhile (fun c => decide (c = sep))
      ((List.replicate n sep).reverse) = [] := by
    rw [List.dropWhile_eq_nil_iff]
    intro x hx
    rw [List.mem_reverse, List.mem_replicate] at hx
    simp [hx.2]
  rw [trim, hd]
  rfl

/-- Claim C10, witness: three separators trim to the empty string. -/
theorem c10_trim_all_separators_witness :
    1 ≤ 3 ∧ trim (List.replicate 3 sep) = [] :=
  ⟨by decide, c10_trim_all_separators 3 (by decide)⟩

/- Anchors: the model reproduces the behaviour pinned down by the
repository's own test suite (src/test.cpp, POSIX sections). -/

example : splitStream "foo/bar/baz".data = ["foo".data, "bar".data, "baz".data] := by decide

example : (split "foo/bar/baz".data).length = 3 := by decide

example : (split "foo/bar/baz/".data).length = 4 := by decide

example : (split "/foo/bar/baz/".data).length = 5 := by decide

example : trim "/hello/how/are/you////".data = "/hello/how/are/you".data := by decide

example : trim "/hello/how/are/you".data = "/hello/how/are/you".data := by decide

example : directory "/hello/how/are/you".data = "/hello/how/are/you/".data := by decide

example : directory "/hello/how/are/you//".data = "/hello/how/are/you/".data := by decide

example : sanitize "foo///bar/a/b/../c".data = "foo/bar/a/c".data := by decide

example : sanitize "../foo///bar/a/b/../c".data = "../foo/bar/a/c".data := by decide

example : sanitize "../../a/b////c".data = "../../a/b/c".data := by decide

example : sanitize "/../../a/b////c".data = "/a/b/c".data := by decide

example : sanitize "/./././a/./b/../../c".data = "/c".data := by decide

example : sanitize "././a/b/c/".data = "a/b/c/".data := by decide

example : parent "/hello/how/are/you".data = "/hello/how/are/".data := by decide

example : parent "/".data = "/".data := by decide

example : parent (parent "foo/bar".data) = "".data := by decide

example : parent "foo/../bar/baz/a/../".data = "bar/".data := by decide

example : up "".data = "../".data := by decide

end Apathy
